import Mathlib

/-!
# Verification of the pylake force-extension fitting core

Shallow embedding of `src/lumicks/pylake/fdfit.py` and
`src/lumicks/pylake/fitting/model.py`.  Python floats are modelled by `ℚ`;
Python `OrderedDict`s are modelled by association lists together with the
update-or-append operation `odSet` that mirrors `dict.__setitem__`
(assignment to an existing key keeps its position, a new key is appended).
-/

set_option maxHeartbeats 1000000

/-- A value of a parameter transformation: either a renamed free parameter
(a Python `str`) or a fixed numeric constant (a Python `float`). -/
inductive TValue where
  | free (name : String)
  | fixed (value : ℚ)
deriving DecidableEq

/-- Python `str(x)` on a transformation value, as used by
`Data.condition_string`.  A `str` is returned unchanged; the decimal
rendering of a Python float constant is modelled by `Rat` printing (the
claims below never depend on the exact digits of a numeric rendering). -/
def TValue.pyStr : TValue → String
  | .free n => n
  | .fixed q => toString q

/-- Python membership test `x in keys` for a transformation value against a
collection of string keys: a float compares unequal to every `str`. -/
def TValue.isNameIn (v : TValue) (names : List String) : Bool :=
  match v with
  | .free n => names.contains n
  | .fixed _ => false

/-- Keys of an ordered dictionary represented as an association list. -/
def odKeys (m : List (String × α)) : List String :=
  m.map Prod.fst

/-- Source `OrderedDict.__setitem__`: replace the value in place if the key is
present (keeping its position), otherwise append the new pair. -/
def odSet : List (String × α) → String → α → List (String × α)
  | [], k, v => [(k, v)]
  | (k0, v0) :: t, k, v => if k0 = k then (k0, v) :: t else (k0, v0) :: odSet t k v

/-- Source `OrderedDict.__getitem__` / membership: first binding for a key. -/
def odLookup : List (String × α) → String → Option α
  | [], _ => none
  | (k0, v0) :: t, k => if k0 = k then some v0 else odLookup t k

/-- Build an `OrderedDict` by inserting the given pairs in order into an
empty dictionary (mirrors a Python `for`-loop of item assignments). -/
def odOfList (l : List (String × α)) : List (String × α) :=
  l.foldl (fun acc p => odSet acc p.1 p.2) []

/-- Source `lumicks/pylake/fdfit.py` `Parameter`: a bounded scalar with a
fit-toggle and an initial value. -/
structure PyParameter where
  value : ℚ
  lb : ℚ
  ub : ℚ
  vary : Bool
  init : ℚ
deriving DecidableEq

/-- Source `Parameter.__init__(value=0.0, lb=-inf, ub=inf, vary=True, init=None)`:
the source stores `init` only when `if init:` holds, i.e. when `init` is
neither `None` nor the falsy float `0.0`; otherwise it stores `value`. -/
def Parameter_init (value lb ub : ℚ) (vary : Bool) (init : Option ℚ) : PyParameter :=
  { value := value
    lb := lb
    ub := ub
    vary := vary
    init := match init with
            | some i => if i = 0 then value else i
            | none => value }

/-- Source `Parameters.__getitem__`: `if item in self._src: return self._src[item]`
(an unknown name implicitly returns `None`). -/
def Parameters_getitem (src : List (String × PyParameter)) (item : String) : Option PyParameter :=
  if (odLookup src item).isSome then odLookup src item else none

/-- Source `Parameters.__setitem__`: `if item in self._src: self._src[item].value = value`
(an unknown name is silently ignored). -/
def Parameters_setitem (src : List (String × PyParameter)) (item : String) (value : ℚ) :
    List (String × PyParameter) :=
  if (odLookup src item).isSome then
    src.map (fun p => if p.1 = item then (p.1, { p.2 with value := value }) else p)
  else
    src

/-- C9: For every Parameters registry and every name not present in it,
reading that name returns empty (no value) and writing that name is a no-op
that leaves the registry completely unchanged; neither operation raises. -/
theorem C9_unknown_name_noop (src : List (String × PyParameter)) (item : String) (v : ℚ)
    (h : odLookup src item = none) :
    Parameters_getitem src item = none ∧ Parameters_setitem src item v = src := by
  constructor
  · simp [Parameters_getitem, h]
  · simp [Parameters_setitem, h]

theorem C9_unknown_name_noop_witness :
    Parameters_getitem [("a", Parameter_init 1 0 2 true none)] "b" = none ∧
      Parameters_setitem [("a", Parameter_init 1 0 2 true none)] "b" 7 =
        [("a", Parameter_init 1 0 2 true none)] :=
  C9_unknown_name_noop [("a", Parameter_init 1 0 2 true none)] "b" 7 (by decide)

/-- C10: For every Parameter constructed with an explicit `init` argument
equal to `0.0` (and likewise when `init` is omitted or `None`), the stored
initial value equals the `value` argument rather than `0.0`: the constructor
treats any falsy `init` as absent. -/
theorem C10_zero_init_discarded (value lb ub : ℚ) (vary : Bool) :
    (Parameter_init value lb ub vary (some 0)).init = value ∧
      (Parameter_init value lb ub vary none).init = value := by
  constructor <;> simp [Parameter_init]

/-- A primitive model from `fdfit.py` / `fitting/model.py`: a model function
together with optional analytic jacobian and derivative callables
(`self._jacobian`, `self._derivative`, `None` when not supplied). -/
structure SrcModel where
  model_function : List ℚ → List ℚ → List ℚ
  jac : Option (List ℚ → List ℚ → List (List ℚ))
  deriv : Option (List ℚ → List ℚ → List ℚ)

/-- Source `Model.has_jacobian`: `if self._jacobian: return True` — truthy exactly
when a jacobian callable was supplied. -/
def SrcModel.has_jacobian (m : SrcModel) : Bool :=
  m.jac.isSome

/-- Source `Model.has_derivative` (`fitting/model.py`): `if self._derivative:
return True`. -/
def SrcModel.has_derivative (m : SrcModel) : Bool :=
  m.deriv.isSome

/-- Source `InverseModel.has_jacobian` as implemented in `fdfit.py` (lines
258-262): the body is `return True`, regardless of the wrapped model. -/
def InverseModel_has_jacobian_fdfit (_m : SrcModel) : Bool :=
  true

/-- Source `InverseModel.has_jacobian` as implemented in `fitting/model.py` (lines
455-459): `return self.model.has_jacobian and self.model.has_derivative`. -/
def InverseModel_has_jacobian (m : SrcModel) : Bool :=
  m.has_jacobian && m.has_derivative

/-- A wrapped model supplying neither a jacobian nor a derivative. -/
def modelWithoutDerivatives : SrcModel :=
  { model_function := fun _ p => p, jac := none, deriv := none }

/-- C2: the claim says `Inverted(m).has_jacobian` is true iff `m` has both
an analytic Jacobian and a derivative.  `fitting/model.py` satisfies this,
but `fdfit.py`'s `InverseModel.has_jacobian` returns `True` unconditionally
— contradicting its own docstring ("This requires a Jacobian and a
derivative w.r.t. independent variable").  Evaluated at a wrapped model
with neither jacobian nor derivative: the fdfit implementation still
reports `true`. -/
theorem C2_fdfit_inverse_has_jacobian_unconditional :
    InverseModel_has_jacobian_fdfit modelWithoutDerivatives = true ∧
      SrcModel.has_jacobian modelWithoutDerivatives = false ∧
      SrcModel.has_derivative modelWithoutDerivatives = false ∧
      InverseModel_has_jacobian modelWithoutDerivatives = false :=
  ⟨rfl, rfl, rfl, rfl⟩

/-- Source `invert_jacobian` from `fdfit.py` (lines 96-129): with
`F = inverted_model_function(d)`, computes `inverse = 1.0/derivative`
elementwise, tiles it across the jacobian's rows and returns
`-jacobian * inverted_dyda` (elementwise product). -/
def invert_jacobian (d : List ℚ)
    (inverted_model_function : List ℚ → List ℚ)
    (jacobian_function : List ℚ → List (List ℚ))
    (derivative_function : List ℚ → List ℚ) : List (List ℚ) :=
  let F := inverted_model_function d
  let jacobian := jacobian_function F
  let derivative := derivative_function F
  let inverse := derivative.map (fun x => 1 / x)
  jacobian.map (fun row => List.zipWith (fun a b => -a * b) row inverse)

/-- C6: for every target vector `d`, inverted model function, forward
Jacobian function and forward derivative function, the entry of
`invert_jacobian` for parameter `k` at point `i` equals
`−jacobian_function(F)[k,i] / derivative_function(F)[i]` with
`F = inverted_model_function(d)`. -/
theorem C6_invert_jacobian_entries (d : List ℚ)
    (inverted_model_function : List ℚ → List ℚ)
    (jacobian_function : List ℚ → List (List ℚ))
    (derivative_function : List ℚ → List ℚ) (k i : ℕ)
    (hk : k < (jacobian_function (inverted_model_function d)).length)
    (hi : i < ((jacobian_function (inverted_model_function d)).getD k []).length)
    (hi2 : i < (derivative_function (inverted_model_function d)).length) :
    ((invert_jacobian d inverted_model_function jacobian_function
        derivative_function).getD k []).getD i 0 =
      -(((jacobian_function (inverted_model_function d)).getD k []).getD i 0 /
        (derivative_function (inverted_model_function d)).getD i 0) := by
  set F := inverted_model_function d with hF
  set J := jacobian_function F with hJ
  set der := derivative_function F with hder
  have hmaplen : k < (J.map (fun row => List.zipWith (fun a b => -a * b) row
      (der.map (fun x => 1 / x)))).length := by
    simpa using hk
  have hrow : (J.getD k []) = J[k] := List.getD_eq_getElem J [] hk
  have hzw : i < (List.zipWith (fun a b : ℚ => -a * b) J[k]
      (der.map (fun x => 1 / x))).length := by
    rw [List.length_zipWith]
    refine lt_min ?_ ?_
    · rw [← hrow]; exact hi
    · simpa using hi2
  have hderlen : i < (der.map (fun x : ℚ => 1 / x)).length := by simpa using hi2
  have hrowlen : i < J[k].length := by rw [← hrow]; exact hi
  calc ((invert_jacobian d inverted_model_function jacobian_function
          derivative_function).getD k []).getD i 0
      = ((J.map (fun row => List.zipWith (fun a b => -a * b) row
          (der.map (fun x => 1 / x))))[k]).getD i 0 := by
        rw [invert_jacobian]
        rw [List.getD_eq_getElem _ [] hmaplen]
    _ = (List.zipWith (fun a b : ℚ => -a * b) J[k] (der.map (fun x => 1 / x))).getD i 0 := by
        rw [List.getElem_map]
    _ = -(J[k])[i] * ((der.map (fun x : ℚ => 1 / x))[i]) := by
        rw [List.getD_eq_getElem _ 0 hzw, List.getElem_zipWith]
    _ = -(J[k])[i] * (1 / der[i]) := by rw [List.getElem_map]
    _ = -((J.getD k []).getD i 0 / der.getD i 0) := by
        rw [hrow, List.getD_eq_getElem _ 0 hrowlen, List.getD_eq_getElem _ 0 hi2]
        rw [one_div, ← div_eq_mul_inv, neg_div]

theorem C6_invert_jacobian_entries_witness :
    ((invert_jacobian [3] (fun l => l) (fun _ => [[2]]) (fun _ => [4])).getD 0 []).getD 0 0 =
      -((((fun _ : List ℚ => [[(2 : ℚ)]]) ((fun l : List ℚ => l) [3])).getD 0 []).getD 0 0 /
        (((fun _ : List ℚ => [(4 : ℚ)]) ((fun l : List ℚ => l) [3])).getD 0 0)) :=
  C6_invert_jacobian_entries [3] (fun l => l) (fun _ => [[2]]) (fun _ => [4]) 0 0
    (by decide) (by decide) (by decide)

/-- Source `Data` from `fdfit.py`: one experimental curve together with its
parameter transformation mapping (base parameter name to renamed free
parameter or fixed constant). -/
structure Data where
  x : List ℚ
  y : List ℚ
  transformations : List (String × TValue)
deriving DecidableEq

/-- Source `Data.condition_string`: `'|'.join(str(x) for x in
self.transformations.values())`. -/
def Data.condition_string (d : Data) : String :=
  String.intercalate "|" (d.transformations.map (fun p => p.2.pyStr))

/-- Source `Data.parameter_names`: the transformation values that are strings
(free parameters after transformation). -/
def Data.parameter_names (d : Data) : List String :=
  d.transformations.filterMap (fun p => match p.2 with
    | .free n => some n
    | .fixed _ => none)

/-- Source `Condition` from `fdfit.py`: per-slot external flags, fixed local
values, referenced global names, and global index vector. -/
structure Condition where
  transformations : List (String × TValue)
  p_external : List Bool
  p_local : List ℚ
  p_reference : List String
  p_indices : List ℕ
deriving DecidableEq

/-- Source `Condition.__init__(transformations, global_dictionary)`.  The source
indexes `global_dictionary[key]`; the preceding build-time check guarantees
every referenced key is present, so the (unreachable) missing-key case is
given an arbitrary index. -/
def Condition.ofTransformations (transformations : List (String × TValue))
    (global_dictionary : List (String × ℕ)) : Condition :=
  let transformed := transformations.map Prod.snd
  { transformations := transformations
    p_external := transformed.map (fun v => match v with
      | .free _ => true
      | .fixed _ => false)
    p_local := transformed.map (fun v => match v with
      | .free _ => 0
      | .fixed q => q)
    p_reference := transformed.filterMap (fun v => match v with
      | .free n => some n
      | .fixed _ => none)
    p_indices := (transformed.filterMap (fun v => match v with
      | .free n => some n
      | .fixed _ => none)).map (fun k => (odLookup global_dictionary k).getD 0) }

/-- Gather `par_global[self.p_indices]` (numpy integer-array indexing). -/
def gatherIndices (g : List ℚ) (idx : List ℕ) : List ℚ :=
  idx.map (fun i => g.getD i 0)

/-- numpy boolean-mask assignment `p_local[p_external] = vals`: slots whose
mask is true take successive values from `vals`, the rest keep their fixed
value.  (The source guarantees `vals` has exactly one entry per true slot.) -/
def maskScatter : List ℚ → List Bool → List ℚ → List ℚ
  | [], _, _ => []
  | _ :: xs, true :: ms, v :: vs => v :: maskScatter xs ms vs
  | x :: xs, true :: ms, [] => x :: maskScatter xs ms []
  | x :: xs, false :: ms, vs => x :: maskScatter xs ms vs
  | x :: xs, [], _ => x :: xs

/-- Source `Condition.get_local_parameters`:
`self.p_local[self.p_external] = par_global[self.p_indices]`. -/
def Condition.get_local_parameters (c : Condition) (par_global : List ℚ) : List ℚ :=
  maskScatter c.p_local c.p_external (gatherIndices par_global c.p_indices)

/-- Modelled from the spec: `unique_idx` lives in
`lumicks/pylake/detail/utilities.py`, which is not part of the sources;
section 4.3 of the spec describes it as deduplication preserving first-seen
order.  `pyUnique` is that deduplicated list. -/
def pyUnique (xs : List String) : List String :=
  xs.foldl (fun acc x => if x ∈ acc then acc else acc ++ [x]) []

/-- Modelled from the spec: the second component of `unique_idx` — for each
element, the index of its value inside the deduplicated list. -/
def uniqueIdx (xs : List String) : List String × List ℕ :=
  (pyUnique xs, xs.map (fun x => (pyUnique xs).indexOf x))

/-- The per-data condition strings of a data-set list
(`_generate_conditions`'s `str_conditions`). -/
def strConditionsOf (data_sets : List Data) : List String :=
  data_sets.map Data.condition_string

/-- The condition index assigned to each data set (`indices` in
`_generate_conditions`). -/
def conditionIndices (data_sets : List Data) : List ℕ :=
  (uniqueIdx (strConditionsOf data_sets)).2

/-- Source `data_link` in `_generate_conditions`: for each unique condition, the
list of data indices mapped to it (`np.nonzero(np.equal(indices, c))`). -/
def dataLinkOf (data_sets : List Data) : List (List ℕ) :=
  (List.range (uniqueIdx (strConditionsOf data_sets)).1.length).map
    (fun c => (List.range data_sets.length).filter
      (fun i => (conditionIndices data_sets).getD i 0 = c))

/-- The two `assert`s guarding `_generate_conditions`: the transformation
key set must equal the model parameter set (Python `set` equality), and the
value set must be a subset of the global lookup's keys (Python membership:
a numeric constant is unequal to every string key). -/
def checkDataSet (d : Data) (lookup_keys : List String) (model_parameters : List String) :
    Except String Unit :=
  if ¬ ((d.transformations.map Prod.fst).all (fun k => k ∈ model_parameters) ∧
        model_parameters.all (fun k => k ∈ d.transformations.map Prod.fst)) then
    Except.error "Source parameters in data parameter transformations are incompatible with the specified model parameters."
  else if ¬ (d.transformations.map Prod.snd).all (fun v => v.isNameIn lookup_keys) then
    Except.error "Parameter transformations contain transformed parameter names that are not in the combined parameter list."
  else
    Except.ok ()

/-- Source `_generate_conditions(data_sets, parameter_lookup, model_parameters)`
from `fdfit.py` (lines 23-62): check every data set, deduplicate condition
strings, and build one `Condition` from the first data set of each group. -/
def generate_conditions (data_sets : List Data) (parameter_lookup : List (String × ℕ))
    (model_parameters : List String) : Except String (List Condition × List (List ℕ)) := do
  let lookup_keys := odKeys parameter_lookup
  let _ ← data_sets.forM (fun d => checkDataSet d lookup_keys model_parameters)
  let data_link := dataLinkOf data_sets
  let conditions := data_link.map (fun l =>
    Condition.ofTransformations ((data_sets.getD (l.headD 0)
      { x := [], y := [], transformations := [] }).transformations) parameter_lookup)
  return (conditions, data_link)

/-- A data set fixing its single base parameter to a numeric constant. -/
def dataWithFixedConstant : Data :=
  { x := [], y := [], transformations := [("a", TValue.fixed 5)] }

/-- C1: the claim says building conditions fails exactly when a key set
mismatches or a free-parameter-name value is missing from the global set,
and succeeds for data whose transformations fix base parameters to numeric
constants.  The code instead checks that *all* transformation values — the
numeric constants included — occur among the global parameter names, so a
data set with a fixed constant is always rejected: here the key set matches
`["a"]`, there is no free-parameter-name value at all, and yet
`_generate_conditions` raises. -/
theorem C1_fixed_constant_rejected :
    ((dataWithFixedConstant.transformations.map Prod.fst).all (fun k => k ∈ ["a"]) ∧
      (["a"].all (fun k => k ∈ dataWithFixedConstant.transformations.map Prod.fst))) ∧
      (∀ v ∈ dataWithFixedConstant.transformations.map Prod.snd,
        ∀ s, v = TValue.free s → s ∈ ([] : List String)) ∧
      generate_conditions [dataWithFixedConstant] [] ["a"] =
        Except.error "Parameter transformations contain transformed parameter names that are not in the combined parameter list." := by
  refine ⟨by decide, ?_, by rfl⟩
  intro v hv s hs
  simp [dataWithFixedConstant] at hv
  simp [hv] at hs

/-- Two data indices are assigned to the same condition when some entry of
`data_link` contains both. -/
def sameCondition (data_link : List (List ℕ)) (i j : ℕ) : Prop :=
  ∃ c ∈ data_link, i ∈ c ∧ j ∈ c

theorem foldl_dedup_mem_acc :
    ∀ (xs acc : List String) (y : String), y ∈ acc →
      y ∈ xs.foldl (fun acc x => if x ∈ acc then acc else acc ++ [x]) acc := by
  intro xs
  induction xs with
  | nil => intro acc y h; simpa using h
  | cons a t ih =>
    intro acc y h
    simp only [List.foldl_cons]
    apply ih
    by_cases hmem : a ∈ acc
    · rw [if_pos hmem]; exact h
    · rw [if_neg hmem]; exact List.mem_append_left _ h

theorem mem_foldl_dedup :
    ∀ (xs acc : List String) (x : String), x ∈ xs →
      x ∈ xs.foldl (fun acc x => if x ∈ acc then acc else acc ++ [x]) acc := by
  intro xs
  induction xs with
  | nil => intro acc x h; simp at h
  | cons a t ih =>
    intro acc x h
    simp only [List.foldl_cons]
    rcases List.mem_cons.1 h with rfl | hx
    · apply foldl_dedup_mem_acc
      by_cases hmem : x ∈ acc
      · rw [if_pos hmem]; exact hmem
      · rw [if_neg hmem]; exact List.mem_append_right _ (List.mem_singleton.2 rfl)
    · exact ih _ x hx

theorem mem_pyUnique {x : String} {xs : List String} (h : x ∈ xs) : x ∈ pyUnique xs :=
  mem_foldl_dedup xs [] x h

theorem condition_string_mem_strConditions (ds : List Data) (i : ℕ) (hi : i < ds.length) :
    (ds.get ⟨i, hi⟩).condition_string ∈ strConditionsOf ds :=
  List.mem_map_of_mem Data.condition_string (List.get_mem ds i hi)

theorem conditionIndices_getD (ds : List Data) (i : ℕ) (hi : i < ds.length) :
    (conditionIndices ds).getD i 0 =
      (pyUnique (strConditionsOf ds)).indexOf ((ds.get ⟨i, hi⟩).condition_string) := by
  have h1 : conditionIndices ds =
      ds.map (fun d => (pyUnique (strConditionsOf ds)).indexOf d.condition_string) := by
    simp only [conditionIndices, uniqueIdx, strConditionsOf, List.map_map]
    rfl
  have hlen : i < (ds.map
      (fun d => (pyUnique (strConditionsOf ds)).indexOf d.condition_string)).length := by
    simpa using hi
  rw [h1, List.getD_eq_getElem _ 0 hlen, List.getElem_map, List.get_eq_getElem]

theorem sameCondition_dataLink_iff (ds : List Data) (i j : ℕ)
    (hi : i < ds.length) (hj : j < ds.length) :
    sameCondition (dataLinkOf ds) i j ↔
      (ds.get ⟨i, hi⟩).condition_string = (ds.get ⟨j, hj⟩).condition_string := by
  constructor
  · rintro ⟨c, hc, hic, hjc⟩
    rcases List.mem_map.1 hc with ⟨k, _, rfl⟩
    have h1 := of_decide_eq_true (List.mem_filter.1 hic).2
    have h2 := of_decide_eq_true (List.mem_filter.1 hjc).2
    have heq : (conditionIndices ds).getD i 0 = (conditionIndices ds).getD j 0 := by
      rw [h1, h2]
    rw [conditionIndices_getD ds i hi, conditionIndices_getD ds j hj] at heq
    exact (List.indexOf_inj
      (mem_pyUnique (condition_string_mem_strConditions ds i hi))
      (mem_pyUnique (condition_string_mem_strConditions ds j hj))).1 heq
  · intro heq
    have hk_lt : (conditionIndices ds).getD i 0 < (uniqueIdx (strConditionsOf ds)).1.length := by
      rw [conditionIndices_getD ds i hi]
      exact List.indexOf_lt_length.2
        (mem_pyUnique (condition_string_mem_strConditions ds i hi))
    have hji : (conditionIndices ds).getD j 0 = (conditionIndices ds).getD i 0 := by
      rw [conditionIndices_getD ds i hi, conditionIndices_getD ds j hj, heq]
    refine ⟨(List.range ds.length).filter
      (fun t => (conditionIndices ds).getD t 0 = (conditionIndices ds).getD i 0), ?_, ?_, ?_⟩
    · exact List.mem_map_of_mem _ (List.mem_range.2 hk_lt)
    · exact List.mem_filter.2 ⟨List.mem_range.2 hi, decide_eq_true rfl⟩
    · exact List.mem_filter.2 ⟨List.mem_range.2 hj, decide_eq_true hji⟩

/-- C3 (amended): two Data records attached to the same build are assigned
to the same Condition if and only if their condition strings — the
`'|'`-joined `str` renderings of their ordered transformation values — are
equal; identical ordered transformation values always give the same
condition.  (The original claim's converse fails: distinct value lists can
collide when a free-parameter name contains the `'|'` separator, see the
counterexample.) -/
theorem C3_same_condition_iff_condition_string (ds : List Data)
    (lookup : List (String × ℕ)) (mp : List String)
    (conds : List Condition) (dl : List (List ℕ))
    (h : generate_conditions ds lookup mp = Except.ok (conds, dl))
    (i j : ℕ) (hi : i < ds.length) (hj : j < ds.length) :
    (sameCondition dl i j ↔
      (ds.get ⟨i, hi⟩).condition_string = (ds.get ⟨j, hj⟩).condition_string) ∧
    ((ds.get ⟨i, hi⟩).transformations.map Prod.snd =
        (ds.get ⟨j, hj⟩).transformations.map Prod.snd →
      sameCondition dl i j) := by
  have hdl : dl = dataLinkOf ds := by
    cases hres : ds.forM (fun d => checkDataSet d (odKeys lookup) mp) with
    | error e => rw [generate_conditions, hres] at h; simp [Bind.bind, Except.bind] at h
    | ok u =>
      rw [generate_conditions, hres] at h
      simp only [Bind.bind, Except.bind, pure, Except.pure, Except.ok.injEq, Prod.mk.injEq] at h
      exact h.2.symm
  subst hdl
  refine ⟨sameCondition_dataLink_iff ds i j hi hj, ?_⟩
  intro hv
  refine (sameCondition_dataLink_iff ds i j hi hj).2 ?_
  unfold Data.condition_string
  rw [show (ds.get ⟨i, hi⟩).transformations.map (fun p => p.2.pyStr) =
      ((ds.get ⟨i, hi⟩).transformations.map Prod.snd).map TValue.pyStr by
        rw [List.map_map]; rfl]
  rw [show (ds.get ⟨j, hj⟩).transformations.map (fun p => p.2.pyStr) =
      ((ds.get ⟨j, hj⟩).transformations.map Prod.snd).map TValue.pyStr by
        rw [List.map_map]; rfl]
  rw [hv]

/-- Data whose free-parameter names contain the `'|'` separator. -/
def dataPipeLeft : Data :=
  { x := [], y := [], transformations := [("a", TValue.free "x|y"), ("b", TValue.free "z")] }

def dataPipeRight : Data :=
  { x := [], y := [], transformations := [("a", TValue.free "x"), ("b", TValue.free "y|z")] }

def pipeLookup : List (String × ℕ) :=
  [("x|y", 0), ("z", 1), ("x", 2), ("y|z", 3)]

/-- C3 (counterexample): the two data records have different ordered
transformation values, yet the build groups them into one single condition
(`data_link = [[0, 1]]`), because both condition strings render as
`"x|y|z"`.  This falsifies the claim that distinct value lists never
collide. -/
theorem C3_pipe_separator_collision :
    dataPipeLeft.transformations.map Prod.snd ≠ dataPipeRight.transformations.map Prod.snd ∧
      generate_conditions [dataPipeLeft, dataPipeRight] pipeLookup ["a", "b"] =
        Except.ok ([Condition.ofTransformations dataPipeLeft.transformations pipeLookup],
          [[0, 1]]) ∧
      sameCondition [[0, 1]] 0 1 := by
  exact ⟨by decide, by rfl, ⟨[0, 1], by decide⟩⟩

theorem C3_same_condition_iff_condition_string_witness :
    sameCondition [[0, 1]] 0 1 :=
  (C3_same_condition_iff_condition_string [dataPipeLeft, dataPipeRight] pipeLookup
    ["a", "b"] _ _ rfl 0 1 (by decide) (by decide)).1.mpr rfl

/-- numpy matrix transpose of a rectangular row-major matrix (used for
`np.transpose(self.model.jacobian(...))`). -/
def npTranspose (m : List (List ℚ)) : List (List ℚ) :=
  (List.range (m.headD []).length).map (fun j => m.map (fun row => row.getD j 0))

/-- numpy fancy-indexed assignment with subtraction on one freshly written
row: `row[idx] = row[idx] - s`.  The right-hand side is evaluated first
against the *old* row; the writes then happen in index order, so for a
duplicated index the last write wins (numpy fancy assignment does not
accumulate). -/
def fancyIndexSub (row : List ℚ) (idx : List ℕ) (s : List ℚ) : List ℚ :=
  ((idx.zip s).map (fun p => (p.1, row.getD p.1 0 - p.2))).foldl
    (fun r q => r.set q.1 q.2) row

/-- The scatter-*add* semantics the claim describes: each duplicated column
accumulates the sum of all its contributions. -/
def scatterSubRow (row : List ℚ) (idx : List ℕ) (s : List ℚ) : List ℚ :=
  (idx.zip s).foldl (fun r q => r.set q.1 (r.getD q.1 0 - q.2)) row

/-- Source `FitObject._evaluate_jacobian` from `fdfit.py` (lines 546-566),
specialised to a model jacobian callable.  The preallocated zero matrix is
written one disjoint row block per (condition, data) pair — `residual_idx`
only ever advances — so the matrix is equivalently the concatenation of the
blocks, each row starting from zeros and updated once by
`jacobian[rows, p_indices] = jacobian[rows, p_indices] - sensitivities`. -/
def evaluate_jacobian (model_jacobian : List ℚ → List ℚ → List (List ℚ))
    (conditions : List Condition) (data_link : List (List ℕ)) (data_sets : List Data)
    (n_parameters : ℕ) (parameter_values : List ℚ) : List (List ℚ) :=
  ((conditions.zip data_link).map (fun cd =>
    let p_local := cd.1.get_local_parameters parameter_values
    (cd.2.map (fun di =>
      let data_set := data_sets.getD di { x := [], y := [], transformations := [] }
      let sensitivities := npTranspose (model_jacobian data_set.x p_local)
      sensitivities.map (fun sRow =>
        fancyIndexSub (List.replicate n_parameters 0) cd.1.p_indices sRow))).flatten)).flatten

/-- A condition in which two base parameters are mapped to the *same*
global parameter `g` (duplicate global index). -/
def duplicateIndexCondition : Condition :=
  Condition.ofTransformations [("a", TValue.free "g"), ("b", TValue.free "g")] [("g", 0)]

/-- A model jacobian with two local parameters and one data point, each
local slot contributing sensitivity 1. -/
def unitJacobian : List ℚ → List ℚ → List (List ℚ) :=
  fun _ _ => [[1], [1]]

/-- C5: the claim says the global Jacobian column of a shared global
parameter receives the *sum* of the contributions of all local slots
mapping to it.  The code's fancy-indexed assignment keeps only the last
write: with two unit local sensitivities both mapping to global column 0,
the assembled Jacobian is `[[-1]]` where the claimed scatter-add semantics
give `[[-2]]`. -/
theorem C5_duplicate_index_drops_contribution :
    duplicateIndexCondition.p_indices = [0, 0] ∧
      evaluate_jacobian unitJacobian [duplicateIndexCondition] [[0]]
        [{ x := [1], y := [2], transformations := duplicateIndexCondition.transformations }]
        1 [5] = [[-1]] ∧
      fancyIndexSub (List.replicate 1 0) duplicateIndexCondition.p_indices [1, 1] = [-1] ∧
      scatterSubRow (List.replicate 1 0) duplicateIndexCondition.p_indices [1, 1] = [-2] := by
  refine ⟨by decide, ?_, ?_, ?_⟩
  · norm_num [evaluate_jacobian, unitJacobian, duplicateIndexCondition,
      Condition.ofTransformations, Condition.get_local_parameters, gatherIndices,
      maskScatter, odLookup, npTranspose, fancyIndexSub, List.filterMap_cons,
      List.range_succ, Function.comp]
  · norm_num [fancyIndexSub, duplicateIndexCondition, Condition.ofTransformations,
      odLookup, List.filterMap_cons]
  · norm_num [scatterSubRow, duplicateIndexCondition, Condition.ofTransformations,
      odLookup, List.filterMap_cons]

theorem odKeys_odSet_of_mem {α : Type} (m : List (String × α)) (k : String) (v : α)
    (h : k ∈ odKeys m) : odKeys (odSet m k v) = odKeys m := by
  induction m with
  | nil => simp [odKeys] at h
  | cons p t ih =>
    obtain ⟨k0, v0⟩ := p
    by_cases hk : k0 = k
    · simp [odSet, hk, odKeys]
    · have hmem : k ∈ odKeys t := by
        rcases List.mem_cons.1 h with h1 | h1
        · exact absurd h1.symm hk
        · exact h1
      have ih' := ih hmem
      simp only [odSet, if_neg hk, odKeys, List.map_cons] at ih' ⊢
      rw [ih']

theorem odSet_eq_append_of_not_mem {α : Type} (m : List (String × α)) (k : String) (v : α)
    (h : k ∉ odKeys m) : odSet m k v = m ++ [(k, v)] := by
  induction m with
  | nil => simp [odSet]
  | cons p t ih =>
    obtain ⟨k0, v0⟩ := p
    have hk : k0 ≠ k := fun he => h (by simp [odKeys, he])
    have ht : k ∉ odKeys t := fun hm => h (by simp [odKeys]; exact Or.inr (by simpa [odKeys] using hm))
    simp [odSet, hk, ih ht]

theorem odLookup_odSet_self {α : Type} (m : List (String × α)) (k : String) (v : α) :
    odLookup (odSet m k v) k = some v := by
  induction m with
  | nil => simp [odSet, odLookup]
  | cons p t ih =>
    obtain ⟨k0, v0⟩ := p
    by_cases hk : k0 = k
    · simp [odSet, hk, odLookup]
    · simp [odSet, hk, odLookup, ih]

theorem odLookup_odSet_ne {α : Type} (m : List (String × α)) (k n : String) (v : α)
    (h : n ≠ k) : odLookup (odSet m k v) n = odLookup m n := by
  have hkn : k ≠ n := fun he => h he.symm
  induction m with
  | nil => simp [odSet, odLookup, hkn]
  | cons p t ih =>
    obtain ⟨k0, v0⟩ := p
    by_cases hk : k0 = k
    · subst hk
      simp [odSet, odLookup, hkn]
    · simp [odSet, hk, odLookup, ih]

theorem odLookup_eq_none_of_not_mem {α : Type} (m : List (String × α)) (n : String)
    (h : n ∉ odKeys m) : odLookup m n = none := by
  induction m with
  | nil => simp [odLookup]
  | cons p t ih =>
    obtain ⟨k0, v0⟩ := p
    have hk : k0 ≠ n := fun he => h (by simp [odKeys, he])
    have ht : n ∉ odKeys t := fun hm => h (by simp [odKeys]; exact Or.inr (by simpa [odKeys] using hm))
    simp [odLookup, hk, ih ht]

/-- Insert all pairs of `l` in order into the ordered dictionary `acc`
(a Python loop of `dict[key] = value` assignments). -/
def odInsertAll {α : Type} (acc l : List (String × α)) : List (String × α) :=
  l.foldl (fun acc p => odSet acc p.1 p.2) acc

theorem odInsertAll_of_disjoint {α : Type} :
    ∀ (l acc : List (String × α)), (∀ p ∈ l, p.1 ∉ odKeys acc) → (odKeys l).Nodup →
      odInsertAll acc l = acc ++ l := by
  intro l
  induction l with
  | nil => intro acc _ _; simp [odInsertAll]
  | cons p t ih =>
    intro acc hdisj hnd
    obtain ⟨k, v⟩ := p
    have hnd2 : k ∉ odKeys t ∧ (odKeys t).Nodup := by
      rw [show odKeys ((k, v) :: t) = k :: odKeys t from rfl, List.nodup_cons] at hnd
      exact hnd
    have hk : k ∉ odKeys acc := hdisj (k, v) (List.mem_cons_self _ _)
    have hdisj' : ∀ q ∈ t, q.1 ∉ odKeys (acc ++ [(k, v)]) := by
      intro q hq
      simp only [odKeys, List.map_append, List.mem_append]
      rintro (hq1 | hq1)
      · exact hdisj q (List.mem_cons_of_mem _ hq) hq1
      · simp at hq1
        exact hnd2.1 (hq1 ▸ List.mem_map_of_mem Prod.fst hq)
    calc odInsertAll acc ((k, v) :: t)
        = odInsertAll (odSet acc k v) t := rfl
      _ = odInsertAll (acc ++ [(k, v)]) t := by rw [odSet_eq_append_of_not_mem acc k v hk]
      _ = (acc ++ [(k, v)]) ++ t := ih (acc ++ [(k, v)]) hdisj' hnd2.2
      _ = acc ++ (k, v) :: t := by simp

theorem odOfList_self {α : Type} (l : List (String × α)) (h : (odKeys l).Nodup) :
    odOfList l = l := by
  have := odInsertAll_of_disjoint l [] (by simp [odKeys]) h
  simpa [odInsertAll, odOfList] using this

theorem odLookup_odInsertAll_not_mem {α : Type} :
    ∀ (l acc : List (String × α)) (n : String), n ∉ odKeys l →
      odLookup (odInsertAll acc l) n = odLookup acc n := by
  intro l
  induction l with
  | nil => intro acc n _; rfl
  | cons p t ih =>
    intro acc n hn
    obtain ⟨k, v⟩ := p
    have hnk : n ≠ k := fun he => hn (by simp [odKeys, he])
    have hnt : n ∉ odKeys t := fun hm => hn (by simp [odKeys]; exact Or.inr (by simpa [odKeys] using hm))
    calc odLookup (odInsertAll (odSet acc k v) t) n
        = odLookup (odSet acc k v) n := ih (odSet acc k v) n hnt
      _ = odLookup acc n := odLookup_odSet_ne acc k n v hnk

theorem odLookup_odInsertAll {α : Type} :
    ∀ (l acc : List (String × α)), (odKeys l).Nodup → ∀ n,
      odLookup (odInsertAll acc l) n =
        (match odLookup l n with
         | some v => some v
         | none => odLookup acc n) := by
  intro l
  induction l with
  | nil => intro acc _ n; simp [odInsertAll, odLookup]
  | cons p t ih =>
    intro acc hnd n
    obtain ⟨k, v⟩ := p
    have hnd2 : k ∉ odKeys t ∧ (odKeys t).Nodup := by
      rw [show odKeys ((k, v) :: t) = k :: odKeys t from rfl, List.nodup_cons] at hnd
      exact hnd
    by_cases hn : n = k
    · subst hn
      have h1 : odLookup (odInsertAll (odSet acc n v) t) n = odLookup (odSet acc n v) n :=
        odLookup_odInsertAll_not_mem t (odSet acc n v) n hnd2.1
      calc odLookup (odInsertAll acc ((n, v) :: t)) n
          = odLookup (odSet acc n v) n := h1
        _ = some v := odLookup_odSet_self acc n v
        _ = _ := by simp [odLookup]
    · have h1 := ih (odSet acc k v) hnd2.2 n
      have hkn : ¬ (k = n) := fun he => hn he.symm
      calc odLookup (odInsertAll acc ((k, v) :: t)) n
          = odLookup (odInsertAll (odSet acc k v) t) n := rfl
        _ = (match odLookup t n with
             | some v' => some v'
             | none => odLookup (odSet acc k v) n) := h1
        _ = (match odLookup t n with
             | some v' => some v'
             | none => odLookup acc n) := by
              rw [odLookup_odSet_ne acc k n v hn]
        _ = _ := by simp [odLookup, hkn]

theorem odKeys_odInsertAll {α : Type} :
    ∀ (l acc : List (String × α)), (odKeys l).Nodup →
      odKeys (odInsertAll acc l) =
        odKeys acc ++ (odKeys l).filter (fun n => n ∉ odKeys acc) := by
  intro l
  induction l with
  | nil => intro acc _; simp [odInsertAll, odKeys]
  | cons p t ih =>
    intro acc hnd
    obtain ⟨k, v⟩ := p
    have hnd2 : k ∉ odKeys t ∧ (odKeys t).Nodup := by
      rw [show odKeys ((k, v) :: t) = k :: odKeys t from rfl, List.nodup_cons] at hnd
      exact hnd
    have hcons : odKeys ((k, v) :: t) = k :: odKeys t := rfl
    by_cases hk : k ∈ odKeys acc
    · have h1 := ih (odSet acc k v) hnd2.2
      rw [odKeys_odSet_of_mem acc k v hk] at h1
      calc odKeys (odInsertAll acc ((k, v) :: t))
          = odKeys (odInsertAll (odSet acc k v) t) := rfl
        _ = odKeys acc ++ (odKeys t).filter (fun n => n ∉ odKeys acc) := h1
        _ = _ := by rw [hcons, List.filter_cons]; simp [hk]
    · have h1 := ih (odSet acc k v) hnd2.2
      rw [odSet_eq_append_of_not_mem acc k v hk] at h1
      have hkeysapp : odKeys (acc ++ [(k, v)]) = odKeys acc ++ [k] := by
        simp [odKeys]
      rw [hkeysapp] at h1
      have hfilter : (odKeys t).filter (fun n => n ∉ odKeys acc ++ [k]) =
          (odKeys t).filter (fun n => n ∉ odKeys acc) := by
        apply List.filter_congr
        intro x hx
        have hxk : x ≠ k := fun he => hnd2.1 (he ▸ hx)
        simp [hxk]
      calc odKeys (odInsertAll acc ((k, v) :: t))
          = odKeys (odInsertAll (acc ++ [(k, v)]) t) := by
            show odKeys (odInsertAll (odSet acc k v) t) = _
            rw [odSet_eq_append_of_not_mem acc k v hk]
        _ = (odKeys acc ++ [k]) ++ (odKeys t).filter (fun n => n ∉ odKeys acc ++ [k]) := h1
        _ = odKeys acc ++ (k :: (odKeys t).filter (fun n => n ∉ odKeys acc)) := by
            rw [hfilter, List.append_assoc]
            rfl
        _ = _ := by rw [hcons, List.filter_cons]; simp [hk]

/-- Source `CompositeModel.__init__` parameter merge (`fdfit.py` lines 276-299 and
`fitting/model.py` lines 369-397): start from an empty `OrderedDict`,
insert all of `lhs._parameters`, then all of `rhs._parameters`. -/
def CompositeModel_parameters {α : Type} (lhsP rhsP : List (String × α)) :
    List (String × α) :=
  odInsertAll (odInsertAll [] lhsP) rhsP

/-- C4: the composite's parameter names are lhs's names followed by the rhs
names not already present (a shared name collapses to a single slot, so the
merged key list is duplicate-free), and for a name occurring in both
sub-models the stored default is rhs's (the second insertion loop silently
replaces lhs's value). -/
theorem C4_composite_parameter_merge (lhsP rhsP : List (String × Option PyParameter))
    (hl : (odKeys lhsP).Nodup) (hr : (odKeys rhsP).Nodup) :
    odKeys (CompositeModel_parameters lhsP rhsP) =
      odKeys lhsP ++ (odKeys rhsP).filter (fun n => n ∉ odKeys lhsP) ∧
    (odKeys (CompositeModel_parameters lhsP rhsP)).Nodup ∧
    (∀ n v, n ∈ odKeys lhsP → n ∈ odKeys rhsP → odLookup rhsP n = some v →
      odLookup (CompositeModel_parameters lhsP rhsP) n = some v) := by
  have hbase : odInsertAll [] lhsP = lhsP := odOfList_self lhsP hl
  have hkeys : odKeys (CompositeModel_parameters lhsP rhsP) =
      odKeys lhsP ++ (odKeys rhsP).filter (fun n => n ∉ odKeys lhsP) := by
    rw [CompositeModel_parameters, hbase]
    exact odKeys_odInsertAll rhsP lhsP hr
  refine ⟨hkeys, ?_, ?_⟩
  · rw [hkeys]
    refine List.Nodup.append hl (List.Nodup.filter _ hr) ?_
    intro a ha hafilter
    have := of_decide_eq_true (List.mem_filter.1 hafilter).2
    exact this ha
  · intro n v _ _ hv
    rw [CompositeModel_parameters, hbase, odLookup_odInsertAll rhsP lhsP hr n, hv]

def lhsParamsW : List (String × Option PyParameter) :=
  [("a", none), ("s", some (Parameter_init 1 0 2 true none))]

def rhsParamsW : List (String × Option PyParameter) :=
  [("s", some (Parameter_init 5 0 9 true none)), ("b", none)]

theorem C4_composite_parameter_merge_witness :
    odKeys (CompositeModel_parameters lhsParamsW rhsParamsW) = ["a", "s", "b"] ∧
      odLookup (CompositeModel_parameters lhsParamsW rhsParamsW) "s" =
        some (some (Parameter_init 5 0 9 true none)) :=
  ⟨((C4_composite_parameter_merge lhsParamsW rhsParamsW (by decide) (by decide)).1).trans
      (by decide),
    (C4_composite_parameter_merge lhsParamsW rhsParamsW (by decide) (by decide)).2.2 "s"
      (some (Parameter_init 5 0 9 true none)) (by decide) (by decide) (by decide)⟩

/-- A model as seen by `CompositeModel` in `fdfit.py`: an ordered parameter
dictionary (name to optional default) and the wrapped model callable
mapping independent values and a parameter vector to outputs. -/
structure PModel where
  parameters : List (String × Option PyParameter)
  model_function : List ℚ → List ℚ → List ℚ

def PModel.parameter_names (m : PModel) : List String :=
  odKeys m.parameters

/-- Source `self.lhs_parameters = [True if x in parameters_lhs else False for x in
parameters_all]` (`fdfit.py` line 298). -/
def CompositeModel_lhs_mask (lhs rhs : PModel) : List Bool :=
  (odKeys (CompositeModel_parameters lhs.parameters rhs.parameters)).map
    (fun x => decide (x ∈ lhs.parameter_names))

/-- Source `self.rhs_parameters` (`fdfit.py` line 299). -/
def CompositeModel_rhs_mask (lhs rhs : PModel) : List Bool :=
  (odKeys (CompositeModel_parameters lhs.parameters rhs.parameters)).map
    (fun x => decide (x ∈ rhs.parameter_names))

/-- numpy boolean-mask indexing `v[mask]`: keep the entries whose mask is
true, in order. -/
def maskSelect : List ℚ → List Bool → List ℚ
  | [], _ => []
  | _ :: _, [] => []
  | x :: xs, b :: bs => if b then x :: maskSelect xs bs else maskSelect xs bs

/-- Source `CompositeModel.__call__` (`fdfit.py` lines 301-303):
`lhs(data, p[lhs_parameters]) + rhs(data, p[rhs_parameters])`, the numpy
`+` being elementwise addition. -/
def CompositeModel_call (lhs rhs : PModel) (data parameter_vector : List ℚ) : List ℚ :=
  List.zipWith (· + ·)
    (lhs.model_function data (maskSelect parameter_vector (CompositeModel_lhs_mask lhs rhs)))
    (rhs.model_function data (maskSelect parameter_vector (CompositeModel_rhs_mask lhs rhs)))

theorem maskSelect_replicate_false :
    ∀ (v : List ℚ) (b : ℕ), maskSelect v (List.replicate b false) = [] := by
  intro v
  induction v with
  | nil => intro b; cases b <;> rfl
  | cons x xs ih =>
    intro b
    cases b with
    | zero => rfl
    | succ b' => simpa [List.replicate, maskSelect] using ih b'

theorem maskSelect_replicate_true_append :
    ∀ (a : ℕ) (v : List ℚ) (m : List Bool), a ≤ v.length →
      maskSelect v (List.replicate a true ++ m) = v.take a ++ maskSelect (v.drop a) m := by
  intro a
  induction a with
  | zero => intro v m _; simp
  | succ a' ih =>
    intro v m ha
    cases v with
    | nil => simp at ha
    | cons x xs =>
      show x :: maskSelect xs (List.replicate a' true ++ m) =
        (x :: xs).take (a' + 1) ++ maskSelect ((x :: xs).drop (a' + 1)) m
      rw [List.take_succ_cons, List.drop_succ_cons, ih xs m (by simpa using ha)]
      rfl

theorem maskSelect_replicate_false_append :
    ∀ (a : ℕ) (v : List ℚ) (m : List Bool), a ≤ v.length →
      maskSelect v (List.replicate a false ++ m) = maskSelect (v.drop a) m := by
  intro a
  induction a with
  | zero => intro v m _; simp
  | succ a' ih =>
    intro v m ha
    cases v with
    | nil => simp at ha
    | cons x xs =>
      show maskSelect xs (List.replicate a' false ++ m) =
        maskSelect ((x :: xs).drop (a' + 1)) m
      rw [List.drop_succ_cons]
      exact ih xs m (by simpa using ha)

theorem maskSelect_nil_mask : ∀ (v : List ℚ), maskSelect v [] = [] := by
  intro v; cases v <;> rfl

theorem maskSelect_replicate_true (v : List ℚ) :
    maskSelect v (List.replicate v.length true) = v := by
  have h := maskSelect_replicate_true_append v.length v [] (le_refl _)
  simpa [maskSelect_nil_mask] using h

theorem map_mem_eq_replicate_true (L : List String) (p : String → Prop) [DecidablePred p]
    (h : ∀ x ∈ L, p x) : L.map (fun x => decide (p x)) = List.replicate L.length true := by
  induction L with
  | nil => rfl
  | cons a t ih =>
    simp only [List.map_cons, List.length_cons, List.replicate]
    rw [decide_eq_true (h a (List.mem_cons_self _ _)),
      ih (fun x hx => h x (List.mem_cons_of_mem _ hx))]

theorem map_not_mem_eq_replicate_false (L : List String) (p : String → Prop) [DecidablePred p]
    (h : ∀ x ∈ L, ¬ p x) : L.map (fun x => decide (p x)) = List.replicate L.length false := by
  induction L with
  | nil => rfl
  | cons a t ih =>
    simp only [List.map_cons, List.length_cons, List.replicate]
    rw [decide_eq_false (h a (List.mem_cons_self _ _)),
      ih (fun x hx => h x (List.mem_cons_of_mem _ hx))]

/-- C8: for two models with disjoint parameter name sets, the composite
model evaluated on the merged parameter vector equals the elementwise sum
of the two sub-models, each evaluated on its own block of the merged
vector (lhs gets the first `|lhs|` entries, rhs the remaining ones) — pure
arithmetic, no solver involved. -/
theorem C8_composite_additivity (lhs rhs : PModel) (data parameter_vector : List ℚ)
    (hl : lhs.parameter_names.Nodup) (hr : rhs.parameter_names.Nodup)
    (hdisj : ∀ n ∈ lhs.parameter_names, n ∉ rhs.parameter_names)
    (hlen : parameter_vector.length = lhs.parameters.length + rhs.parameters.length) :
    CompositeModel_call lhs rhs data parameter_vector =
      List.zipWith (· + ·)
        (lhs.model_function data (parameter_vector.take lhs.parameters.length))
        (rhs.model_function data (parameter_vector.drop lhs.parameters.length)) := by
  have hbase : odInsertAll [] lhs.parameters = lhs.parameters :=
    odOfList_self lhs.parameters hl
  have hmerge : CompositeModel_parameters lhs.parameters rhs.parameters =
      lhs.parameters ++ rhs.parameters := by
    rw [CompositeModel_parameters, hbase]
    exact odInsertAll_of_disjoint rhs.parameters lhs.parameters
      (fun p hp hmem => hdisj p.1 hmem (List.mem_map_of_mem Prod.fst hp)) hr
  have hkeysapp : odKeys (lhs.parameters ++ rhs.parameters) =
      odKeys lhs.parameters ++ odKeys rhs.parameters := by
    simp [odKeys]
  have hlmask : CompositeModel_lhs_mask lhs rhs =
      List.replicate lhs.parameters.length true ++
        List.replicate rhs.parameters.length false := by
    rw [CompositeModel_lhs_mask, hmerge, hkeysapp, List.map_append]
    rw [map_mem_eq_replicate_true (odKeys lhs.parameters)
        (fun x => x ∈ lhs.parameter_names) (fun x hx => hx),
      map_not_mem_eq_replicate_false (odKeys rhs.parameters)
        (fun x => x ∈ lhs.parameter_names) (fun x hx hmem => hdisj x hmem hx)]
    simp [odKeys]
  have hrmask : CompositeModel_rhs_mask lhs rhs =
      List.replicate lhs.parameters.length false ++
        List.replicate rhs.parameters.length true := by
    rw [CompositeModel_rhs_mask, hmerge, hkeysapp, List.map_append]
    rw [map_not_mem_eq_replicate_false (odKeys lhs.parameters)
        (fun x => x ∈ rhs.parameter_names) (fun x hx => hdisj x hx),
      map_mem_eq_replicate_true (odKeys rhs.parameters)
        (fun x => x ∈ rhs.parameter_names) (fun x hx => hx)]
    simp [odKeys]
  have hlhs_len : lhs.parameters.length ≤ parameter_vector.length := by omega
  have hdrop_len : (parameter_vector.drop lhs.parameters.length).length =
      rhs.parameters.length := by
    rw [List.length_drop]
    omega
  have hsel_l : maskSelect parameter_vector (CompositeModel_lhs_mask lhs rhs) =
      parameter_vector.take lhs.parameters.length := by
    rw [hlmask, maskSelect_replicate_true_append lhs.parameters.length parameter_vector _
      hlhs_len]
    rw [← hdrop_len, maskSelect_replicate_false]
    simp
  have hsel_r : maskSelect parameter_vector (CompositeModel_rhs_mask lhs rhs) =
      parameter_vector.drop lhs.parameters.length := by
    rw [hrmask, maskSelect_replicate_false_append lhs.parameters.length parameter_vector _
      hlhs_len]
    rw [← hdrop_len, maskSelect_replicate_true]
  rw [CompositeModel_call, hsel_l, hsel_r]

def lhsModelW : PModel :=
  { parameters := [("a", none)], model_function := fun x p => x.map (fun t => t + p.headD 0) }

def rhsModelW : PModel :=
  { parameters := [("b", none)], model_function := fun x p => x.map (fun t => t * p.headD 1) }

theorem C8_composite_additivity_witness :
    CompositeModel_call lhsModelW rhsModelW [10] [2, 3] =
      List.zipWith (· + ·)
        (lhsModelW.model_function [10] (([2, 3] : List ℚ).take 1))
        (rhsModelW.model_function [10] (([2, 3] : List ℚ).drop 1)) :=
  C8_composite_additivity lhsModelW rhsModelW [10] [2, 3]
    (by decide) (by decide) (by decide) (by decide)

/-- The kwargs loop of `parse_transformation` (`fdfit.py` lines 14-18):
`if key in transformed: transformed[key] = value else: raise KeyError`. -/
def applyKwargs : List (String × TValue) → List (String × TValue) →
    Except String (List (String × TValue))
  | transformed, [] => Except.ok transformed
  | transformed, (key, value) :: rest =>
    if (odLookup transformed key).isSome then
      applyKwargs (odSet transformed key value) rest
    else
      Except.error ("Parameter " ++ key ++ " to be substituted not found in model.")

/-- Source `parse_transformation(parameters, **kwargs)` (`fdfit.py` lines 11-20):
build `OrderedDict(zip(parameters, parameters))` — each base name maps to
itself as a free-parameter name — then apply the keyword substitutions. -/
def parse_transformation (parameters : List String) (kwargs : List (String × TValue)) :
    Except String (List (String × TValue)) :=
  applyKwargs (odOfList (parameters.map (fun p => (p, TValue.free p)))) kwargs

/-- The override function accumulated by applying the substitutions left to
right. -/
def applyAll (g : String → TValue) (kwargs : List (String × TValue)) : String → TValue :=
  kwargs.foldl (fun g q => fun p => if p = q.1 then q.2 else g p) g

theorem odKeys_map_self (ps : List String) (g : String → TValue) :
    odKeys (ps.map (fun p => (p, g p))) = ps := by
  induction ps with
  | nil => rfl
  | cons a t ih =>
    simp [odKeys] at ih ⊢
    exact ih

theorem odLookup_map_self_mem (ps : List String) (g : String → TValue) (k : String)
    (h : k ∈ ps) : odLookup (ps.map (fun p => (p, g p))) k = some (g k) := by
  induction ps with
  | nil => simp at h
  | cons a t ih =>
    by_cases ha : a = k
    · subst ha
      simp [odLookup]
    · have hk : k ∈ t := by
        rcases List.mem_cons.1 h with h1 | h1
        · exact absurd h1.symm ha
        · exact h1
      simp [odLookup, ha, ih hk]

theorem odSet_map_self (ps : List String) (hps : ps.Nodup) (g : String → TValue)
    (k : String) (v : TValue) (hk : k ∈ ps) :
    odSet (ps.map (fun p => (p, g p))) k v =
      ps.map (fun p => (p, if p = k then v else g p)) := by
  induction ps with
  | nil => simp at hk
  | cons a t ih =>
    have hnd := List.nodup_cons.1 hps
    by_cases ha : a = k
    · subst ha
      have h1 : odSet ((a, g a) :: t.map (fun p => (p, g p))) a v =
          (a, v) :: t.map (fun p => (p, g p)) := by simp [odSet]
      rw [List.map_cons, h1, List.map_cons, if_pos rfl]
      congr 1
      apply List.map_congr_left
      intro p hp
      have hpa : p ≠ a := fun he => hnd.1 (he ▸ hp)
      simp [hpa]
    · have hk' : k ∈ t := by
        rcases List.mem_cons.1 hk with h1 | h1
        · exact absurd h1.symm ha
        · exact h1
      simp only [List.map_cons, odSet, if_neg ha, ih hnd.2 hk']

theorem applyKwargs_ok (ps : List String) (hps : ps.Nodup) :
    ∀ (kwargs : List (String × TValue)) (g : String → TValue),
      (∀ q ∈ kwargs, q.1 ∈ ps) →
      applyKwargs (ps.map (fun p => (p, g p))) kwargs =
        Except.ok (ps.map (fun p => (p, applyAll g kwargs p))) := by
  intro kwargs
  induction kwargs with
  | nil => intro g _; simp [applyKwargs, applyAll]
  | cons q rest ih =>
    intro g hall
    obtain ⟨k, v⟩ := q
    have hk : k ∈ ps := hall (k, v) (List.mem_cons_self _ _)
    have hsome : (odLookup (ps.map (fun p => (p, g p))) k).isSome := by
      rw [odLookup_map_self_mem ps g k hk]
      rfl
    show (if (odLookup (ps.map (fun p => (p, g p))) k).isSome then
        applyKwargs (odSet (ps.map (fun p => (p, g p))) k v) rest
      else Except.error ("Parameter " ++ k ++ " to be substituted not found in model.")) = _
    rw [if_pos hsome, odSet_map_self ps hps g k v hk,
      ih (fun p => if p = k then v else g p) (fun q hq => hall q (List.mem_cons_of_mem _ hq))]
    rfl

theorem applyAll_eq_lookup :
    ∀ (kwargs : List (String × TValue)), (odKeys kwargs).Nodup →
      ∀ (g : String → TValue) (p : String),
        applyAll g kwargs p =
          (match odLookup kwargs p with
           | some v => v
           | none => g p) := by
  intro kwargs
  induction kwargs with
  | nil => intro _ g p; simp [applyAll, odLookup]
  | cons q t ih =>
    intro hnd g p
    obtain ⟨k, v⟩ := q
    have hnd2 : k ∉ odKeys t ∧ (odKeys t).Nodup := by
      rw [show odKeys ((k, v) :: t) = k :: odKeys t from rfl, List.nodup_cons] at hnd
      exact hnd
    have step : applyAll g ((k, v) :: t) p =
        applyAll (fun x => if x = k then v else g x) t p := rfl
    rw [step, ih hnd2.2 (fun x => if x = k then v else g x) p]
    by_cases hp : p = k
    · subst hp
      rw [odLookup_eq_none_of_not_mem t p hnd2.1]
      simp [odLookup]
    · have hkp : ¬ (k = p) := fun he => hp he.symm
      simp only [odLookup, if_neg hkp]
      cases odLookup t p with
      | none => simp [hp]
      | some w => rfl

theorem applyKwargs_error_iff (ps : List String) (hps : ps.Nodup) :
    ∀ (kwargs : List (String × TValue)) (g : String → TValue),
      ((∃ e, applyKwargs (ps.map (fun p => (p, g p))) kwargs = Except.error e) ↔
        ∃ q ∈ kwargs, q.1 ∉ ps) := by
  intro kwargs
  induction kwargs with
  | nil =>
    intro g
    constructor
    · rintro ⟨e, he⟩
      simp [applyKwargs] at he
    · rintro ⟨q, hq, _⟩
      simp at hq
  | cons q rest ih =>
    intro g
    obtain ⟨k, v⟩ := q
    by_cases hk : k ∈ ps
    · have hsome : (odLookup (ps.map (fun p => (p, g p))) k).isSome := by
        rw [odLookup_map_self_mem ps g k hk]
        rfl
      have hstep : applyKwargs (ps.map (fun p => (p, g p))) ((k, v) :: rest) =
          applyKwargs (ps.map (fun p => (p, if p = k then v else g p))) rest := by
        show (if (odLookup (ps.map (fun p => (p, g p))) k).isSome then
            applyKwargs (odSet (ps.map (fun p => (p, g p))) k v) rest
          else Except.error ("Parameter " ++ k ++
            " to be substituted not found in model.")) = _
        rw [if_pos hsome, odSet_map_self ps hps g k v hk]
      rw [hstep]
      rw [ih (fun p => if p = k then v else g p)]
      constructor
      · rintro ⟨q, hq, hq2⟩
        exact ⟨q, List.mem_cons_of_mem _ hq, hq2⟩
      · rintro ⟨q, hq, hq2⟩
        rcases List.mem_cons.1 hq with rfl | hq
        · exact absurd hk hq2
        · exact ⟨q, hq, hq2⟩
    · have hnone : odLookup (ps.map (fun p => (p, g p))) k = none := by
        apply odLookup_eq_none_of_not_mem
        rw [odKeys_map_self]
        exact hk
      have hstep : applyKwargs (ps.map (fun p => (p, g p))) ((k, v) :: rest) =
          Except.error ("Parameter " ++ k ++ " to be substituted not found in model.") := by
        show (if (odLookup (ps.map (fun p => (p, g p))) k).isSome then
            applyKwargs (odSet (ps.map (fun p => (p, g p))) k v) rest
          else Except.error ("Parameter " ++ k ++
            " to be substituted not found in model.")) = _
        rw [hnone]
        rfl
      rw [hstep]
      constructor
      · intro _
        exact ⟨(k, v), List.mem_cons_self _ _, hk⟩
      · intro _
        exact ⟨"Parameter " ++ k ++ " to be substituted not found in model.", rfl⟩

/-- C7: the transformation resolver returns, in base-name order, each base
name mapped to itself unless overridden by the substitutions, and it raises
exactly when some substitution key is absent from the base parameter
names. -/
theorem C7_parse_transformation_contract (ps : List String)
    (kwargs : List (String × TValue)) (hps : ps.Nodup) (hkw : (odKeys kwargs).Nodup) :
    ((∀ k ∈ odKeys kwargs, k ∈ ps) →
      parse_transformation ps kwargs = Except.ok (ps.map (fun p =>
        (p, match odLookup kwargs p with
            | some v => v
            | none => TValue.free p)))) ∧
    ((∃ e, parse_transformation ps kwargs = Except.error e) ↔
      ∃ k ∈ odKeys kwargs, k ∉ ps) := by
  have hself : odOfList (ps.map (fun p => (p, TValue.free p))) =
      ps.map (fun p => (p, TValue.free p)) := by
    apply odOfList_self
    rw [odKeys_map_self]
    exact hps
  constructor
  · intro hall
    have hall' : ∀ q ∈ kwargs, q.1 ∈ ps :=
      fun q hq => hall q.1 (List.mem_map_of_mem Prod.fst hq)
    rw [parse_transformation, hself, applyKwargs_ok ps hps kwargs TValue.free hall']
    have hfun : (fun p => (p, applyAll TValue.free kwargs p)) =
        (fun p => (p, match odLookup kwargs p with
                      | some v => v
                      | none => TValue.free p)) :=
      funext (fun p => by rw [applyAll_eq_lookup kwargs hkw TValue.free p])
    rw [hfun]
  · rw [parse_transformation, hself]
    rw [applyKwargs_error_iff ps hps kwargs TValue.free]
    constructor
    · rintro ⟨q, hq, hq2⟩
      exact ⟨q.1, List.mem_map_of_mem Prod.fst hq, hq2⟩
    · rintro ⟨k, hk, hk2⟩
      rcases List.mem_map.1 hk with ⟨q, hq, rfl⟩
      exact ⟨q, hq, hk2⟩

theorem C7_parse_transformation_contract_witness :
    parse_transformation ["a", "b"] [("a", TValue.free "c")] =
      Except.ok [("a", TValue.free "c"), ("b", TValue.free "b")] :=
  (C7_parse_transformation_contract ["a", "b"] [("a", TValue.free "c")]
    (by decide) (by decide)).1 (by decide)
